import Mathlib

/-!
Verification of the core logic of `src/app.py` (PDF text stamper):
page-range parsing (`parse_pages`, lines 34-58), the caller fallback to
all pages (lines 210-212), the coordinate mappings between document space
and preview-pixel space (crosshair overlay, lines 239-240; "Use This
Point" handler, lines 186-188), and the baseline anchor passed to the
text-drawing primitive by `overlay_copy` (lines 66-94) and
`render_stamped_preview` (lines 104-132).

Python strings are modelled as `List Char` (ASCII fidelity); Python
floats are modelled as exact rationals `ℚ` with the rounding operations
(`int(...)` truncation, `round(...)` banker's rounding) made explicit.
-/

/-- Models Python's notion of whitespace for `str.strip()` and `int(str)`
(space, tab, newline, carriage return, vertical tab, form feed). -/
def pyIsSpace (c : Char) : Bool :=
  c = ' ' || c = '\t' || c = '\n' || c = '\r' || c = '\x0b' || c = '\x0c'

/-- Models Python `str.strip()`: remove leading and trailing whitespace. -/
def stripChars (l : List Char) : List Char :=
  ((l.dropWhile pyIsSpace).reverse.dropWhile pyIsSpace).reverse

/-- Models Python `text.split(",")`: split at every comma, keeping empty
pieces; the empty string yields `[""]`. -/
def splitComma : List Char → List (List Char)
  | [] => [[]]
  | c :: rest =>
    match splitComma rest with
    | [] => [[c]]
    | h :: t => if c = ',' then [] :: h :: t else (c :: h) :: t

/-- Models Python `part.split("-", 1)` guarded by `"-" in part`: `none`
when no dash occurs, otherwise the pieces before and after the first dash. -/
def splitFirstDash : List Char → Option (List Char × List Char)
  | [] => none
  | c :: rest =>
    if c = '-' then some ([], rest)
    else
      match splitFirstDash rest with
      | none => none
      | some (l, r) => some (c :: l, r)

/-- Tail of a valid Python integer-literal digit string: digits with
single underscores allowed only between digits. -/
def digitsTail : List Char → Bool
  | [] => true
  | c :: rest =>
    if c.isDigit then digitsTail rest
    else if c = '_' then
      match rest with
      | [] => false
      | d :: r => d.isDigit && digitsTail r
    else false

/-- A valid Python digit run: nonempty, starts with a digit, underscores
only between digits. -/
def pyDigitsOk : List Char → Bool
  | [] => false
  | c :: rest => c.isDigit && digitsTail rest

/-- Numeric value of a digit run, ignoring underscores. -/
def digitsVal (l : List Char) : ℕ :=
  l.foldl (fun acc c => if c = '_' then acc else 10 * acc + (c.toNat - 48)) 0

/-- Models Python `int(s)` on a string: strip whitespace, optional single
sign, then a valid digit run; `none` models the `ValueError` raised
otherwise. -/
def pyToInt (l : List Char) : Option ℤ :=
  match stripChars l with
  | '+' :: rest => if pyDigitsOk rest then some ((digitsVal rest : ℕ) : ℤ) else none
  | '-' :: rest => if pyDigitsOk rest then some (-((digitsVal rest : ℕ) : ℤ)) else none
  | rest => if pyDigitsOk rest then some ((digitsVal rest : ℕ) : ℤ) else none

/-- The integers `a, a+1, ..., b` (empty when `b < a`), modelling Python
`range(a, b + 1)`. -/
def intRange (a b : ℤ) : List ℤ :=
  (List.range (b + 1 - a).toNat).map (fun i : ℕ => a + (i : ℤ))

/-- Contribution of one nonempty trimmed segment to the page set, from the
loop body of `parse_pages` (src/app.py lines 42-57): a dashed segment is a
range (swap if reversed, clamp to `[1, total]`), else a single integer
kept only when `1 <= n <= total`; a failed `int()` conversion contributes
nothing. -/
def partPages (part : List Char) (total : ℕ) : List ℤ :=
  match splitFirstDash part with
  | some (as, bs) =>
    match pyToInt as, pyToInt bs with
    | some a0, some b0 =>
      let a1 := if a0 > b0 then b0 else a0
      let b1 := if a0 > b0 then a0 else b0
      intRange (max 1 a1) (min (total : ℤ) b1)
    | _, _ => []
  | none =>
    match pyToInt part with
    | some n => if 1 ≤ n ∧ n ≤ (total : ℤ) then [n] else []
    | none => []

/-- One iteration of the `for part in text.split(","):` loop of
`parse_pages` (src/app.py lines 38-57): trim the raw segment, skip it when
empty, otherwise take its `partPages` contribution. -/
def loopContrib (raw : List Char) (total : ℕ) : List ℤ :=
  let part := stripChars raw
  if part = [] then [] else partPages part total

/-- Models `parse_pages(text, total)` (src/app.py lines 34-58): empty or
whitespace-only text selects all pages; otherwise segments are processed
left to right, the accumulated values (a Python `set`, modelled by a list
deduplicated at the end) are shifted to 0-based and sorted ascending. -/
def parse_pages (text : String) (total : ℕ) : List ℤ :=
  if stripChars text.data = [] then (List.range total).map (fun n : ℕ => (n : ℤ))
  else
    let collected := (splitComma text.data).foldl
      (fun acc raw => acc ++ loopContrib raw total) []
    List.insertionSort (· ≤ ·) ((collected.map (fun p => p - 1)).dedup)

/-- Models the caller of `parse_pages` (src/app.py lines 210-212): when the
parsed sequence is empty, fall back to all pages. -/
def select_pages (text : String) (total : ℕ) : List ℤ :=
  let pages := parse_pages text total
  if pages = [] then (List.range total).map (fun n : ℕ => (n : ℤ)) else pages

/-- Models Python `int(f)` on a float (here an exact rational): truncation
toward zero. -/
def pyTruncInt (q : ℚ) : ℤ :=
  if 0 ≤ q then ⌊q⌋ else ⌈q⌉

/-- Models Python `round(f)` on a float (here an exact rational):
round-half-to-even (banker's rounding). -/
def pyRound (q : ℚ) : ℤ :=
  if q - (⌊q⌋ : ℚ) < 1 / 2 then ⌊q⌋
  else if 1 / 2 < q - (⌊q⌋ : ℚ) then ⌊q⌋ + 1
  else if ⌊q⌋ % 2 = 0 then ⌊q⌋ else ⌊q⌋ + 1

/-- The crosshair overlay's forward mapping from document coordinates to
preview pixels (src/app.py lines 239-240):
`cx = int(x * zoom)`, `cy = int((y + font_size) * zoom)`. -/
def crosshair (x y fs : ℤ) (zoom : ℚ) : ℤ × ℤ :=
  (pyTruncInt ((x : ℚ) * zoom), pyTruncInt (((y : ℚ) + (fs : ℚ)) * zoom))

/-- The "Use This Point" handler's inverse mapping from preview pixels to
document coordinates (src/app.py lines 186-188):
`new_x = max(0, int(round(px / zoom)))`,
`new_y = max(0, int(round(py / zoom) - font_size))`. -/
def use_this_point (px py : ℚ) (fs : ℤ) (zoom : ℚ) : ℤ × ℤ :=
  (max 0 (pyRound (px / zoom)), max 0 (pyRound (py / zoom) - fs))

/-- Forward then inverse mapping with the rounding steps of the code:
document coordinates to crosshair pixels and back through the "Use This
Point" handler. -/
def roundTripDoc (x y fs : ℤ) (zoom : ℚ) : ℤ × ℤ :=
  let c := crosshair x y fs zoom
  use_this_point (c.1 : ℚ) (c.2 : ℚ) fs zoom

/-- The forward mapping with exact (non-rounded) arithmetic: the rounding
steps of `crosshair` removed. -/
def exactForward (x y fs : ℤ) (zoom : ℚ) : ℚ × ℚ :=
  ((x : ℚ) * zoom, ((y : ℚ) + (fs : ℚ)) * zoom)

/-- The inverse mapping with exact (non-rounded) arithmetic: the rounding
steps of `use_this_point` removed, the clamping kept. -/
def exactInverse (px py : ℚ) (fs : ℤ) (zoom : ℚ) : ℚ × ℚ :=
  (max 0 (px / zoom), max 0 (py / zoom - (fs : ℚ)))

/-- The text-stamping operations `(page, anchor)` that `overlay_copy`
(src/app.py lines 66-94) passes to `page.insert_text`: the baseline offset
`y = y + font_size` is applied once, before the loop over pages, and text
is drawn only when `text.strip()` is nonempty. -/
def overlay_copy_ops (text : String) (coords : ℤ × ℤ) (pages : List ℤ)
    (font_size : ℤ) : List (ℤ × (ℤ × ℤ)) :=
  let x := coords.1
  let y := coords.2 + font_size
  if stripChars text.data = [] then []
  else pages.map (fun p => (p, (x, y)))

/-- The text-stamping operation `(page, anchor)` that
`render_stamped_preview` (src/app.py lines 104-132) passes to
`page.insert_text`: `y_pdf = y + font_size`, drawn only when
`text.strip()` is nonempty. -/
def render_stamped_preview_op (page_index : ℤ) (text : String)
    (coords : ℤ × ℤ) (font_size : ℤ) : Option (ℤ × (ℤ × ℤ)) :=
  let x := coords.1
  let y_pdf := coords.2 + font_size
  if stripChars text.data = [] then none
  else some (page_index, (x, y_pdf))

lemma mem_intRange {a b k : ℤ} : k ∈ intRange a b ↔ a ≤ k ∧ k ≤ b := by
  unfold intRange
  constructor
  · intro h
    obtain ⟨i, hi, hk⟩ := List.mem_map.mp h
    have hi2 := List.mem_range.mp hi
    omega
  · intro h
    refine List.mem_map.mpr ⟨(k - a).toNat, List.mem_range.mpr (by omega), by omega⟩

lemma floor_le_pyRound (q : ℚ) : ⌊q⌋ ≤ pyRound q := by
  unfold pyRound
  split_ifs <;> omega

lemma pyRound_le_ceil (q : ℚ) : pyRound q ≤ ⌈q⌉ := by
  by_cases h : q - (⌊q⌋ : ℚ) < 1 / 2
  · unfold pyRound
    rw [if_pos h]
    exact Int.floor_le_ceil q
  · have hlt : (⌊q⌋ : ℚ) < q := by
      have := not_lt.mp h
      linarith
    have h2 : ⌊q⌋ + 1 ≤ ⌈q⌉ := by
      have hc : (⌊q⌋ : ℚ) < (⌈q⌉ : ℚ) := lt_of_lt_of_le hlt (Int.le_ceil q)
      exact_mod_cast Int.add_one_le_iff.mpr (by exact_mod_cast hc)
    unfold pyRound
    rw [if_neg h]
    split_ifs <;> omega

lemma stripChars_eq_nil_iff (l : List Char) :
    stripChars l = [] ↔ ∀ c ∈ l, pyIsSpace c := by
  unfold stripChars
  rw [List.reverse_eq_nil_iff, List.dropWhile_eq_nil_iff]
  constructor
  · intro H c hc
    rcases List.mem_append.mp
        ((List.takeWhile_append_dropWhile (p := pyIsSpace) (l := l)) ▸ hc) with h1 | h1
    · exact List.mem_takeWhile_imp h1
    · exact H c (List.mem_reverse.mpr h1)
  · intro H c hc
    exact H c ((List.dropWhile_sublist pyIsSpace).mem (List.mem_reverse.mp hc))

lemma splitComma_ne_nil (l : List Char) : splitComma l ≠ [] := by
  cases l with
  | nil => simp [splitComma]
  | cons c rest =>
    unfold splitComma
    split
    · simp
    · split <;> simp

example : parse_pages "" 3 = [0, 1, 2] := by decide
example : parse_pages "1-3,5" 10 = [0, 1, 2, 4] := by decide
example : parse_pages "5-2" 10 = [1, 2, 3, 4] := by decide
example : parse_pages "abc,2" 10 = [1] := by decide
example : parse_pages "0,100" 10 = [] := by decide
example : parse_pages " 2 , 2, 1 " 10 = [0, 1] := by decide
example : pyRound (3 / 2) = 2 := by norm_num [pyRound]
example : pyRound (5 / 2) = 2 := by norm_num [pyRound]
example : pyRound (1 / 2) = 0 := by norm_num [pyRound]
example : pyRound (15 / 4) = 4 := by norm_num [pyRound]
example : pyTruncInt (15 / 4) = 3 := by norm_num [pyTruncInt]
example : crosshair 3 0 12 (5 / 4) = (3, 15) := by
  norm_num [crosshair, pyTruncInt]
example : roundTripDoc 3 0 12 (1 / 4) = (0, 0) := by
  norm_num [roundTripDoc, crosshair, use_this_point, pyTruncInt, pyRound]
example : roundTripDoc 7 9 12 (5 / 4) = (6, 9) := by
  norm_num [roundTripDoc, crosshair, use_this_point, pyTruncInt, pyRound]

/-- Claim C3: the inverse mapping computes
`doc_x = max(0, round(pixel_x / zoom))` and
`doc_y = max(0, round(pixel_y / zoom) - font_size)`, and both outputs are
clamped to be non-negative, so document coordinates are never negative. -/
theorem use_this_point_formula_clamped (px py : ℚ) (fs : ℤ) (zoom : ℚ) :
    use_this_point px py fs zoom
      = (max 0 (pyRound (px / zoom)), max 0 (pyRound (py / zoom) - fs)) ∧
    0 ≤ (use_this_point px py fs zoom).1 ∧
    0 ≤ (use_this_point px py fs zoom).2 :=
  ⟨rfl, le_max_left 0 _, le_max_left 0 _⟩

/-- Counterexample to claim C2: at `doc_x = 3`, `zoom = 5/4` the crosshair
overlay computes `int(3 * 1.25) = 3`, not `round(3 * 1.25) = 4`: the
forward mapping truncates instead of rounding to the nearest integer. -/
theorem crosshair_forward_not_round :
    crosshair 3 0 12 (5 / 4)
      ≠ (pyRound ((3 : ℚ) * (5 / 4)), pyRound (((0 : ℚ) + (12 : ℚ)) * (5 / 4))) := by
  norm_num [crosshair, pyTruncInt, pyRound]

/-- Claim C2 (amended): the forward mapping computes
`pixel_x = int(doc_x * zoom)` and `pixel_y = int((doc_y + font_size) * zoom)`
where `int` truncates (equivalently, takes the floor, since the inputs are
non-negative), not `round`. -/
theorem crosshair_forward_trunc (x y fs : ℤ) (zoom : ℚ)
    (hx : 0 ≤ x) (hyf : 0 ≤ y + fs) (hz : 0 ≤ zoom) :
    crosshair x y fs zoom
      = (⌊(x : ℚ) * zoom⌋, ⌊((y : ℚ) + (fs : ℚ)) * zoom⌋) := by
  have h1 : (0 : ℚ) ≤ (x : ℚ) * zoom :=
    mul_nonneg (by exact_mod_cast hx) hz
  have h2 : (0 : ℚ) ≤ ((y : ℚ) + (fs : ℚ)) * zoom :=
    mul_nonneg (by exact_mod_cast hyf) hz
  unfold crosshair pyTruncInt
  rw [if_pos h1, if_pos h2]

/-- Witness for `crosshair_forward_trunc` at `x = 3`, `y = 0`,
`font_size = 12`, `zoom = 5/4`. -/
theorem crosshair_forward_trunc_app :
    crosshair 3 0 12 (5 / 4)
      = (⌊(3 : ℚ) * (5 / 4)⌋, ⌊((0 : ℚ) + (12 : ℚ)) * (5 / 4)⌋) :=
  crosshair_forward_trunc 3 0 12 (5 / 4) (by decide) (by decide) (by norm_num)

/-- Claim C4: on empty or whitespace-only input, `parse_pages` returns
every index from `0` to `total - 1`. -/
theorem parse_pages_blank_all (s : String) (total : ℕ)
    (h : stripChars s.data = []) :
    parse_pages s total = (List.range total).map (fun n : ℕ => (n : ℤ)) := by
  unfold parse_pages
  rw [if_pos h]

/-- Witness for `parse_pages_blank_all` on the whitespace-only string
`"  "` with three pages. -/
theorem parse_pages_blank_all_app :
    parse_pages "  " 3 = (List.range 3).map (fun n : ℕ => (n : ℤ)) :=
  parse_pages_blank_all "  " 3 (by decide)

/-- Claim C10: a segment whose trimmed text begins with `'-'` contributes
nothing to `parse_pages`: the split at the first dash leaves an empty left
part, whose `int()` conversion fails, so the segment is skipped. -/
theorem dash_prefix_segment_empty (raw : List Char) (total : ℕ)
    (h : (stripChars raw).head? = some '-') :
    loopContrib raw total = [] := by
  obtain ⟨t, ht⟩ : ∃ t, stripChars raw = '-' :: t := by
    cases hs : stripChars raw with
    | nil => rw [hs] at h; exact absurd h (by simp)
    | cons c u =>
      rw [hs] at h
      simp only [List.head?_cons, Option.some.injEq] at h
      exact ⟨u, by rw [h]⟩
  unfold loopContrib
  rw [ht, if_neg (by simp)]
  unfold partPages splitFirstDash
  simp [pyToInt, stripChars, pyDigitsOk]

/-- Witness for `dash_prefix_segment_empty` on the segment `"-3"`. -/
theorem dash_prefix_segment_empty_app :
    loopContrib "-3".data 10 = [] :=
  dash_prefix_segment_empty "-3".data 10 (by decide)

/-- Claim C8: a single-integer segment `n` is included only when
`1 <= n <= total`; `parse_pages("0,100", 10)` returns `[]`; the caller
(src/app.py lines 210-212) then substitutes all pages. -/
theorem parse_pages_single_bounds :
    (∀ (part : List Char) (total : ℕ) (n : ℤ),
        splitFirstDash part = none → pyToInt part = some n →
        partPages part total
          = if 1 ≤ n ∧ n ≤ (total : ℤ) then [n] else []) ∧
    parse_pages "0,100" 10 = [] ∧
    select_pages "0,100" 10 = (List.range 10).map (fun k : ℕ => (k : ℤ)) := by
  refine ⟨?_, by decide, by decide⟩
  intro part total n hd hn
  unfold partPages
  rw [hd, hn]

/-- Witness for `parse_pages_single_bounds` on the segment `"2"` with ten
pages. -/
theorem parse_pages_single_bounds_app :
    partPages "2".data 10
      = if 1 ≤ (2 : ℤ) ∧ (2 : ℤ) ≤ ((10 : ℕ) : ℤ) then [2] else [] :=
  parse_pages_single_bounds.1 "2".data 10 2 (by decide) (by decide)

/-- Claim C5: a range segment `a-b` is swapped when `a > b`, then `a` is
clamped up to `1` and `b` down to `total`; exactly the integers of the
clamped interval are contributed; and `parse_pages("5-2", 10)` returns
`[1, 2, 3, 4]`. -/
theorem parse_pages_range_swap_clamp :
    (∀ (part : List Char) (total : ℕ) (sa sb : List Char) (a b : ℤ),
        splitFirstDash part = some (sa, sb) →
        pyToInt sa = some a → pyToInt sb = some b →
        ∀ k : ℤ, k ∈ partPages part total ↔
          max 1 (min a b) ≤ k ∧ k ≤ min (total : ℤ) (max a b)) ∧
    parse_pages "5-2" 10 = [1, 2, 3, 4] := by
  refine ⟨?_, by decide⟩
  intro part total sa sb a b hd ha hb k
  simp only [partPages, hd, ha, hb]
  rw [mem_intRange]
  by_cases hab : a > b
  · rw [if_pos hab, if_pos hab]
    omega
  · rw [if_neg hab, if_neg hab]
    omega

/-- Witness for `parse_pages_range_swap_clamp` on the segment `"5-2"`
with ten pages at `k = 4`. -/
theorem parse_pages_range_swap_clamp_app :
    (4 : ℤ) ∈ partPages "5-2".data 10 ↔
      max 1 (min 5 2) ≤ (4 : ℤ) ∧ (4 : ℤ) ≤ min ((10 : ℕ) : ℤ) (max 5 2) :=
  parse_pages_range_swap_clamp.1 "5-2".data 10 "5".data "2".data 5 2
    (by decide) (by decide) (by decide) 4

/-- Claim C9: `overlay_copy` and `render_stamped_preview` pass the same
baseline anchor `(x, y + font_size)` to the text-drawing primitive: the
export of a single page produces exactly the preview's stamping operation,
and every export operation carries the anchor `(x, y + font_size)`. -/
theorem stamp_anchor_consistent (text : String) (x y fs : ℤ)
    (pages : List ℤ) (p : ℤ) :
    (overlay_copy_ops text (x, y) [p] fs).head?
        = render_stamped_preview_op p text (x, y) fs ∧
    (∀ op ∈ overlay_copy_ops text (x, y) pages fs, op.2 = (x, y + fs)) ∧
    (∀ op ∈ (render_stamped_preview_op p text (x, y) fs).toList,
        op.2 = (x, y + fs)) := by
  by_cases h : stripChars text.data = []
  · refine ⟨by simp [overlay_copy_ops, render_stamped_preview_op, h], ?_, ?_⟩ <;>
      intro op hop <;>
      simp [overlay_copy_ops, render_stamped_preview_op, h] at hop
  · refine ⟨by simp [overlay_copy_ops, render_stamped_preview_op, h], ?_, ?_⟩
    · intro op hop
      simp [overlay_copy_ops, h] at hop
      obtain ⟨q, hq1, hq2⟩ := hop
      rw [← hq2]
    · intro op hop
      simp [render_stamped_preview_op, h] at hop
      rw [hop]

/-- Witness for `stamp_anchor_consistent` with text `"hi"`, anchor
`(3, 4)`, font size `12`, single page `0`. -/
theorem stamp_anchor_consistent_app :
    ((0 : ℤ), ((3 : ℤ), (16 : ℤ))).2 = ((3 : ℤ), (4 : ℤ) + 12) :=
  (stamp_anchor_consistent "hi" 3 4 12 [0] 0).2.1 (0, (3, 16)) (by decide)

/-- Claim C6: `parse_pages("abc,2", 10) = [1]`, and prepending the
malformed segment `"abc,"` to any non-blank input never changes the
result: malformed segments are dropped without aborting the parse of the
remaining segments (the embedding is a total function: no exception
escapes the loop). -/
theorem parse_pages_malformed_skipped :
    parse_pages "abc,2" 10 = [1] ∧
    (∀ (s : String) (total : ℕ), stripChars s.data ≠ [] →
        parse_pages ("abc," ++ s) total = parse_pages s total) := by
  refine ⟨by decide, ?_⟩
  intro s total hs
  have hdata : ("abc," ++ s).data = 'a' :: 'b' :: 'c' :: ',' :: s.data := by
    rw [String.data_append]
    rfl
  obtain ⟨h0, t0, hsplit⟩ : ∃ h0 t0, splitComma s.data = h0 :: t0 := by
    cases hc : splitComma s.data with
    | nil => exact absurd hc (splitComma_ne_nil _)
    | cons h0 t0 => exact ⟨h0, t0, rfl⟩
  have hne : stripChars ('a' :: 'b' :: 'c' :: ',' :: s.data) ≠ [] := by
    intro Hc
    rw [stripChars_eq_nil_iff] at Hc
    exact absurd (Hc 'a' (by simp)) (by decide)
  have hsc : splitComma ('a' :: 'b' :: 'c' :: ',' :: s.data)
      = ('a' :: 'b' :: 'c' :: []) :: h0 :: t0 := by
    simp [splitComma, hsplit]
  have habc : loopContrib ('a' :: 'b' :: 'c' :: []) total = [] := rfl
  unfold parse_pages
  rw [hdata, if_neg hne, if_neg hs, hsc, hsplit, List.foldl_cons, habc]
  rfl

/-- Witness for `parse_pages_malformed_skipped` on the tail `"2"` with ten
pages. -/
theorem parse_pages_malformed_skipped_app :
    parse_pages ("abc," ++ "2") 10 = parse_pages "2" 10 :=
  parse_pages_malformed_skipped.2 "2" 10 (by decide)

lemma partPages_bounds {part : List Char} {total : ℕ} {p : ℤ}
    (hp : p ∈ partPages part total) : 1 ≤ p ∧ p ≤ (total : ℤ) := by
  cases hd : splitFirstDash part with
  | none =>
    simp only [partPages, hd] at hp
    cases hn : pyToInt part with
    | none => simp [hn] at hp
    | some n =>
      simp only [hn] at hp
      by_cases hcond : 1 ≤ n ∧ n ≤ (total : ℤ)
      · rw [if_pos hcond] at hp
        rw [List.mem_singleton] at hp
        omega
      · rw [if_neg hcond] at hp
        simp at hp
  | some ab =>
    obtain ⟨as, bs⟩ := ab
    simp only [partPages, hd] at hp
    cases ha : pyToInt as with
    | none => simp [ha] at hp
    | some a0 =>
      cases hb : pyToInt bs with
      | none => simp [ha, hb] at hp
      | some b0 =>
        simp only [ha, hb] at hp
        rw [mem_intRange] at hp
        exact ⟨le_trans (le_max_left _ _) hp.1, le_trans hp.2 (min_le_left _ _)⟩

lemma loopContrib_bounds {raw : List Char} {total : ℕ} {p : ℤ}
    (hp : p ∈ loopContrib raw total) : 1 ≤ p ∧ p ≤ (total : ℤ) := by
  unfold loopContrib at hp
  by_cases hc : stripChars raw = []
  · rw [if_pos hc] at hp
    simp at hp
  · rw [if_neg hc] at hp
    exact partPages_bounds hp

lemma mem_collected (parts : List (List Char)) (total : ℕ) (init : List ℤ)
    (x : ℤ) :
    (x ∈ parts.foldl (fun acc raw => acc ++ loopContrib raw total) init) ↔
      x ∈ init ∨ ∃ raw ∈ parts, x ∈ loopContrib raw total := by
  induction parts generalizing init with
  | nil => simp
  | cons r rs ih =>
    rw [List.foldl_cons, ih]
    simp only [List.mem_append, List.mem_cons]
    constructor
    · rintro ((h | h) | ⟨raw, hr, hx⟩)
      · exact Or.inl h
      · exact Or.inr ⟨r, Or.inl rfl, h⟩
      · exact Or.inr ⟨raw, Or.inr hr, hx⟩
    · rintro (h | ⟨raw, (rfl | hr), hx⟩)
      · exact Or.inl (Or.inl h)
      · exact Or.inl (Or.inr hx)
      · exact Or.inr ⟨raw, hr, hx⟩

/-- Claim C7: for every input string and total, the output of
`parse_pages` is strictly increasing (sorted ascending, no duplicates) and
every element `idx` satisfies `0 <= idx < total`. -/
theorem parse_pages_sorted_bounds :
    ∀ (s : String) (total : ℕ),
      List.Sorted (· < ·) (parse_pages s total) ∧
      ∀ idx ∈ parse_pages s total, 0 ≤ idx ∧ idx < (total : ℤ) := by
  intro s total
  by_cases hb : stripChars s.data = []
  · have hform : parse_pages s total
        = (List.range total).map (fun n : ℕ => (n : ℤ)) := by
      unfold parse_pages
      rw [if_pos hb]
    rw [hform]
    constructor
    · refine List.pairwise_map.mpr ?_
      exact (List.pairwise_lt_range total).imp (fun h => by exact_mod_cast h)
    · intro idx hidx
      obtain ⟨n, hn, rfl⟩ := List.mem_map.mp hidx
      have hlt := List.mem_range.mp hn
      exact ⟨Int.natCast_nonneg n, by exact_mod_cast hlt⟩
  · have hform : parse_pages s total = List.insertionSort (· ≤ ·)
        ((((splitComma s.data).foldl
            (fun acc raw => acc ++ loopContrib raw total) []).map
          (fun p => p - 1)).dedup) := by
      unfold parse_pages
      rw [if_neg hb]
    rw [hform]
    constructor
    · have hsorted := List.sorted_insertionSort (α := ℤ) (· ≤ ·)
        ((((splitComma s.data).foldl
            (fun acc raw => acc ++ loopContrib raw total) []).map
          (fun p => p - 1)).dedup)
      have hnd := ((List.perm_insertionSort (α := ℤ) (· ≤ ·)
        ((((splitComma s.data).foldl
            (fun acc raw => acc ++ loopContrib raw total) []).map
          (fun p => p - 1)).dedup)).nodup_iff).mpr (List.nodup_dedup _)
      exact (List.Pairwise.and hsorted hnd).imp
        (fun h => lt_of_le_of_ne h.1 h.2)
    · intro idx hidx
      rw [List.mem_insertionSort, List.mem_dedup] at hidx
      obtain ⟨p, hp, rfl⟩ := List.mem_map.mp hidx
      rcases (mem_collected _ total [] p).mp hp with h | ⟨raw, _, hmem⟩
      · simp at h
      · have := loopContrib_bounds hmem
        omega

/-- Witness for `parse_pages_sorted_bounds` at input `"1-3,5"` with ten
pages and element `0`. -/
theorem parse_pages_sorted_bounds_app :
    0 ≤ (0 : ℤ) ∧ (0 : ℤ) < ((10 : ℕ) : ℤ) :=
  (parse_pages_sorted_bounds "1-3,5" 10).2 0 (by decide)

/-- Counterexample to claim C1: at `x = 3`, `y = 0`, `font_size = 12`,
`zoom = 1/4` the rounded round trip returns `(0, 0)`, which is `3` units
away from `x = 3`, so the ±1 bound fails for small zoom. -/
theorem coordinate_roundtrip_pm1_fails :
    ¬(|(roundTripDoc 3 0 12 (1 / 4)).1 - 3| ≤ 1 ∧
      |(roundTripDoc 3 0 12 (1 / 4)).2 - 0| ≤ 1) := by
  have h : roundTripDoc 3 0 12 (1 / 4) = (0, 0) := by
    norm_num [roundTripDoc, crosshair, use_this_point, pyTruncInt, pyRound]
  rw [h]
  decide

lemma trunc_roundtrip_close (t : ℤ) (ht : 0 ≤ t) (z : ℚ) (hz1 : 1 ≤ z) :
    t - 1 ≤ pyRound ((pyTruncInt ((t : ℚ) * z) : ℚ) / z) ∧
    pyRound ((pyTruncInt ((t : ℚ) * z) : ℚ) / z) ≤ t := by
  have hz0 : (0 : ℚ) < z := lt_of_lt_of_le one_pos hz1
  have htz : (0 : ℚ) ≤ (t : ℚ) * z :=
    mul_nonneg (by exact_mod_cast ht) (le_of_lt hz0)
  have htr : pyTruncInt ((t : ℚ) * z) = ⌊(t : ℚ) * z⌋ := by
    unfold pyTruncInt
    rw [if_pos htz]
  rw [htr]
  have hub : (⌊(t : ℚ) * z⌋ : ℚ) / z ≤ (t : ℚ) := by
    rw [div_le_iff₀ hz0]
    exact Int.floor_le _
  have hlb : (t : ℚ) - 1 < (⌊(t : ℚ) * z⌋ : ℚ) / z := by
    rw [lt_div_iff₀ hz0]
    have h1 : (t : ℚ) * z - 1 < (⌊(t : ℚ) * z⌋ : ℚ) := Int.sub_one_lt_floor _
    have h2 : ((t : ℚ) - 1) * z = (t : ℚ) * z - z := by ring
    rw [h2]
    linarith
  constructor
  · have hfl : t - 1 ≤ ⌊(⌊(t : ℚ) * z⌋ : ℚ) / z⌋ := by
      rw [Int.le_floor]
      push_cast
      linarith
    exact le_trans hfl (floor_le_pyRound _)
  · have hcl : ⌈(⌊(t : ℚ) * z⌋ : ℚ) / z⌉ ≤ t := by
      rw [Int.ceil_le]
      exact_mod_cast hub
    exact le_trans (pyRound_le_ceil _) hcl

/-- Claim C1 (amended): with exact (non-rounded) arithmetic the forward
mapping followed by the inverse mapping reproduces `(x, y)` exactly for
every `zoom > 0`; with the code's rounding the round trip is within ±1
per coordinate provided `zoom ≥ 1` — for `zoom < 1` the error can exceed
one unit (see the counterexample at `zoom = 1/4`). -/
theorem coordinate_roundtrip_amended (x y fs : ℤ) (hx : 0 ≤ x) (hy : 0 ≤ y)
    (hfs : 0 ≤ fs) (zoom : ℚ) (hz : 0 < zoom) :
    exactInverse (exactForward x y fs zoom).1 (exactForward x y fs zoom).2
        fs zoom = ((x : ℚ), (y : ℚ)) ∧
    (1 ≤ zoom →
      |(roundTripDoc x y fs zoom).1 - x| ≤ 1 ∧
      |(roundTripDoc x y fs zoom).2 - y| ≤ 1) := by
  constructor
  · have h1 : ((x : ℚ) * zoom) / zoom = (x : ℚ) :=
      mul_div_cancel_right₀ _ (ne_of_gt hz)
    have h2 : (((y : ℚ) + (fs : ℚ)) * zoom) / zoom = (y : ℚ) + (fs : ℚ) :=
      mul_div_cancel_right₀ _ (ne_of_gt hz)
    simp only [exactForward, exactInverse, h1, h2, add_sub_cancel_right]
    rw [max_eq_right (by exact_mod_cast hx), max_eq_right (by exact_mod_cast hy)]
  · intro hz1
    have hxb := trunc_roundtrip_close x hx zoom hz1
    have hcast : ((y : ℚ) + (fs : ℚ)) = ((y + fs : ℤ) : ℚ) := by push_cast; ring
    have hyb := trunc_roundtrip_close (y + fs) (by omega) zoom hz1
    have hrx : (roundTripDoc x y fs zoom).1
        = max 0 (pyRound ((pyTruncInt ((x : ℚ) * zoom) : ℚ) / zoom)) := rfl
    have hry : (roundTripDoc x y fs zoom).2
        = max 0 (pyRound ((pyTruncInt (((y : ℚ) + (fs : ℚ)) * zoom) : ℚ) / zoom)
            - fs) := rfl
    rw [hrx, hry, hcast]
    constructor
    · rw [abs_le]
      rcases le_total (pyRound ((pyTruncInt ((x : ℚ) * zoom) : ℚ) / zoom)) 0 with
        h | h
      · rw [max_eq_left h]
        omega
      · rw [max_eq_right h]
        omega
    · rw [abs_le]
      rcases le_total
          (pyRound ((pyTruncInt (((y + fs : ℤ) : ℚ) * zoom) : ℚ) / zoom) - fs) 0
        with h | h
      · rw [max_eq_left h]
        omega
      · rw [max_eq_right h]
        omega

/-- Witness for `coordinate_roundtrip_amended` at `x = 3`, `y = 2`,
`font_size = 12`, `zoom = 2`. -/
theorem coordinate_roundtrip_amended_app :
    (exactInverse (exactForward 3 2 12 2).1 (exactForward 3 2 12 2).2 12 2
        = ((3 : ℚ), (2 : ℚ))) ∧
    (|(roundTripDoc 3 2 12 2).1 - 3| ≤ 1 ∧
     |(roundTripDoc 3 2 12 2).2 - 2| ≤ 1) :=
  ⟨(coordinate_roundtrip_amended 3 2 12 (by decide) (by decide) (by decide) 2
      (by norm_num)).1,
   (coordinate_roundtrip_amended 3 2 12 (by decide) (by decide) (by decide) 2
      (by norm_num)).2 (by norm_num)⟩
